import Mathlib

/-!
Verification of the word-wheel helper's solving pipeline.

The development shallowly embeds the program's string-processing core:
the pure solver `solve_candidates` and dictionary normalisation
(`solver/solver.py`), and the prefilter, heuristic `looks_reasonable`
and hunspell output parsing of `main.py`.  Words are Lean `String`s;
Python string operations are modelled character-exactly over the ASCII
range (the program's whole domain is `[a-z]+` words, enforced by
`ASCII_RE`).
-/

namespace WordWheel

/-- The whitespace characters stripped by Python's `str.strip()`
(ASCII range: space, tab, newline, carriage return, vertical tab, form feed). -/
def isPySpace (c : Char) : Bool :=
  c == ' ' || c == '\t' || c == '\n' || c == '\r' || c == '\x0b' || c == '\x0c'

/-- Lowering an ASCII uppercase letter: add 32 to its code point. -/
def lowerAZ (c : Char) (h : 'A' ≤ c ∧ c ≤ 'Z') : Char :=
  ⟨c.val + 32, by
    rcases h with ⟨h1, h2⟩
    have hv2 : c.val.toNat ≤ 90 := h2
    have hb : c.val.toNat + 32 < 2 ^ 32 := by omega
    have ht : (c.val + 32).toNat = c.val.toNat + 32 := by
      rw [UInt32.toNat_add]
      exact Nat.mod_eq_of_lt hb
    refine Or.inl ?_
    show (c.val + 32).toNat < 0xd800
    omega⟩

/-- Python `str.lower()` on one character, modelled over the ASCII range
(the program's data is `[a-z]`/`[A-Z]` words and whitespace). -/
def pyLowerChar (c : Char) : Char :=
  if h : 'A' ≤ c ∧ c ≤ 'Z' then lowerAZ c h else c

/-- Python `str.lower()` over a character list. -/
def pyLowerL (l : List Char) : List Char := l.map pyLowerChar

/-- Drop leading Python-whitespace characters (the left half of `str.strip()`). -/
def lstrip : List Char → List Char
  | [] => []
  | c :: cs => if isPySpace c then lstrip cs else c :: cs

/-- Drop trailing Python-whitespace characters. -/
def rstrip (l : List Char) : List Char := (lstrip l.reverse).reverse

/-- Python `str.strip()` over a character list. -/
def pyStripL (l : List Char) : List Char := rstrip (lstrip l)

/-- Python `str.strip()`. -/
def pyStripS (s : String) : String := ⟨pyStripL s.data⟩

/-- Python `str.lower()`. -/
def pyLowerS (s : String) : String := ⟨pyLowerL s.data⟩

/-- `x.lower().strip()` — the constraint normalisation used by `solve_candidates`
and `solve` on `allowed` and `mandatory`. -/
def normConstraint (s : String) : String := pyStripS (pyLowerS s)

/-- `w.strip().lower()` — the candidate normalisation used in the
`solve_candidates` loop. -/
def normCand (w : String) : String := pyLowerS (pyStripS w)

/-- An ASCII lowercase letter, the character class of `ASCII_RE = ^[a-z]+$`. -/
def isAZ (c : Char) : Bool := 'a' ≤ c && c ≤ 'z'

/-- `ASCII_RE.fullmatch(s)`: `s` is nonempty and all of `[a-z]`. -/
def asciiFullmatch (s : String) : Bool := !s.data.isEmpty && s.data.all isAZ

/-- Python's `needle in hay` on strings: contiguous-substring containment. -/
def pyInL (needle hay : List Char) : Bool :=
  hay.tails.any fun t => needle.isPrefixOf t

/-- Python's `needle in hay` on strings. -/
def pyInStr (needle hay : String) : Bool := pyInL needle.data hay.data

/-- Python's `set(a) - set(b)` on strings, as the list of distinct characters of
`a` that do not occur in `b` (only its emptiness is ever used). -/
def pySetDiff (a b : List Char) : List Char :=
  a.dedup.filter fun c => !b.contains c

/-- Python's `Counter(a) == Counter(b)`: every character, counted in `a` and in
`b`, occurs equally often (characters outside both lists trivially count 0). -/
def counterEq (a b : List Char) : Bool :=
  (a.dedup ++ b.dedup).all fun c => a.count c == b.count c

/-- Lexicographic (code-point) order on character lists, Python's string `<=`. -/
def charListLe : List Char → List Char → Bool
  | [], _ => true
  | _ :: _, [] => false
  | a :: as, b :: bs => decide (a < b) || (decide (a = b) && charListLe as bs)

/-- Python's `x <= y` on strings. -/
def wordLe (x y : String) : Bool := charListLe x.data y.data

/-- Strict lexicographic (code-point) order on character lists, Python's `<`. -/
def charListLt : List Char → List Char → Bool
  | [], [] => false
  | [], _ :: _ => true
  | _ :: _, [] => false
  | a :: as, b :: bs => decide (a < b) || (decide (a = b) && charListLt as bs)

/-- Python's `x < y` on strings. -/
def wordLt (x y : String) : Bool := charListLt x.data y.data

/-- The composite sort key `(-len(x), x)` of `solve_candidates`, as a `≤`
relation: longer words first, ties broken by ascending lexicographic order. -/
def validLe (x y : String) : Bool :=
  decide (y.length < x.length) || (decide (x.length = y.length) && wordLe x y)

/-- `re.search(r"(.)\1\1", word)`: some character occurs (at least) three times
consecutively. -/
def hasTriple : List Char → Bool
  | a :: b :: c :: rest => (decide (a = b) && decide (b = c)) || hasTriple (b :: c :: rest)
  | _ => false

/-- `looks_reasonable` from `main.py`: minimum length, no triple-repeated
letter, and no short even-length word made of two identical halves. -/
def looks_reasonable (word : String) (min_len : Nat) : Bool :=
  if word.length < min_len then false
  else if hasTriple word.data then false
  else if word.length ≤ 8 && word.length % 2 == 0 &&
      decide (word.data.take (word.length / 2) = word.data.drop (word.length / 2)) then false
  else true

/-- The per-word keep condition of the `solve_candidates` loop, applied to the
already-normalised word `w`: nonempty, `ASCII_RE.fullmatch`, contains
`mandatory`, and `set(w) - allowed_set` empty. -/
def keepWord (allowed mandatory : String) (w : String) : Bool :=
  !w.data.isEmpty && asciiFullmatch w && pyInStr mandatory w &&
    (pySetDiff w.data allowed.data).isEmpty

/-- The `valid` list built by the `solve_candidates` loop (before sorting):
each candidate is normalised by `w.strip().lower()` and kept when it passes
all filters. -/
def filteredWords (allowed mandatory : String) (candidates : List String) : List String :=
  (candidates.map normCand).filter (keepWord allowed mandatory)

/-- `len(w) == 7 and Counter(w) == allowed_counter`. -/
def isPangramWord (allowed w : String) : Bool :=
  w.length == 7 && counterEq w.data allowed.data

/-- The sort key of `sorted(set(valid), key=lambda x: (-len(x), x))`, as a
`Prop`-valued relation for `List.insertionSort`. -/
def validLeP (x y : String) : Prop := validLe x y = true

instance : DecidableRel validLeP :=
  fun x y => inferInstanceAs (Decidable (validLe x y = true))

/-- Ascending lexicographic order (plain `sorted(...)`) as a `Prop`-valued
relation. -/
def wordLeP (x y : String) : Prop := wordLe x y = true

instance : DecidableRel wordLeP :=
  fun x y => inferInstanceAs (Decidable (wordLe x y = true))

/-- `sorted(set(valid), key=lambda x: (-len(x), x))`. -/
def sortedValid (allowed mandatory : String) (candidates : List String) : List String :=
  List.insertionSort validLeP ((filteredWords allowed mandatory candidates).dedup)

/-- `sorted(set(pangrams))` where `pangrams` collects the kept words of length 7
whose letter counter equals the counter of `allowed`. -/
def sortedPangrams (allowed mandatory : String) (candidates : List String) : List String :=
  List.insertionSort wordLeP
    (((filteredWords allowed mandatory candidates).filter (isPangramWord allowed)).dedup)

/-- The result record of `solve_candidates`. -/
structure SolveResult where
  valid_words : List String
  pangrams_7_exact : List String
  longest_words : List String
  max_len : Nat
deriving DecidableEq

/-- `max_len = len(valid[0]) if valid else 0`. -/
def maxLenList : List String → Nat
  | [] => 0
  | w :: _ => w.length

/-- The `.ok` payload of `solve_candidates` for already-normalised constraints
`a`/`m`: `valid`, `pangrams`, `longest = [w for w in valid if len(w) == max_len]`
and `max_len`. -/
def solveResultFor (a m : String) (candidates : List String) : SolveResult :=
  ⟨sortedValid a m candidates,
   sortedPangrams a m candidates,
   (sortedValid a m candidates).filter
     (fun w => w.length == maxLenList (sortedValid a m candidates)),
   maxLenList (sortedValid a m candidates)⟩

/-- `solve_candidates` from `solver/solver.py`: normalise the constraints with
`.lower().strip()` and validate them (raising `ValueError`, modelled as
`Except.error`, on violation), then filter and normalise the candidates and
derive the sorted result fields. -/
def solve_candidates (allowed mandatory : String) (candidates : List String) :
    Except String SolveResult :=
  if (normConstraint allowed).length ≠ 7 ∨
      (normConstraint allowed).data.dedup.length ≠ 7 ∨
      asciiFullmatch (normConstraint allowed) = false then
    .error "allowed must be exactly 7 distinct letters (a-z)"
  else if (normConstraint mandatory).length ≠ 1 ∨
      asciiFullmatch (normConstraint mandatory) = false then
    .error "mandatory must be exactly one a-z letter"
  else if pyInStr (normConstraint mandatory) (normConstraint allowed) = false then
    .error "mandatory letter must be among allowed letters"
  else
    .ok (solveResultFor (normConstraint allowed) (normConstraint mandatory) candidates)

/-- The candidate prefilter loop of `solve` in `main.py` (runs after the
constraints have been validated and normalised): drop blacklisted words, words
missing `mandatory`, words using letters outside `allowed`, and words failing
the heuristic (when enabled) or the plain minimum-length check (when
disabled). -/
def prefilter (base_words blacklist : List String) (allowed mandatory : String)
    (min_len : Nat) (enable_rf : Bool) : List String :=
  base_words.filter fun w =>
    !blacklist.contains w &&
    pyInStr mandatory w &&
    (pySetDiff w.data allowed.data).isEmpty &&
    !(enable_rf && !looks_reasonable w min_len) &&
    !(!enable_rf && decide (w.length < min_len))

/-- Worker for Python `str.splitlines` (newline-delimited; no entry for a
trailing newline). `cur` holds the current line reversed. -/
def splitlinesGo : List Char → List Char → List (List Char)
  | cur, [] => if cur.isEmpty then [] else [cur.reverse]
  | cur, c :: cs =>
    if c = '\n' then cur.reverse :: splitlinesGo [] cs
    else splitlinesGo (c :: cur) cs

/-- Python `str.splitlines()` (over `\n`, the delimiter hunspell emits). -/
def pySplitlines (l : List Char) : List (List Char) := splitlinesGo [] l

/-- Python `line.startswith(c)` for a one-character pattern. -/
def pyStartsWith (c : Char) (l : List Char) : Bool := l.head? == some c

/-- `[line.strip() for line in out if line.strip() and not line.startswith("@")]`:
the hunspell result lines — stripped, nonempty, raw line not a header. -/
def resultLines (out : List (List Char)) : List (List Char) :=
  (out.filter fun line => !(pyStripL line).isEmpty && !pyStartsWith '@' line).map pyStripL

/-- `hunspell_filter_valid` from `main.py`, with the oracle's raw standard
output as a string: empty input short-circuits; otherwise words are matched
positionally against the result lines (`zip` truncates to the shorter list,
exactly `range(min(len(words), len(result_lines)))`), and a word is accepted
when its line starts with `*`.  The Python `set` of accepted words is
modelled as a duplicate-free list. -/
def hunspell_filter_valid (words : List String) (stdoutRaw : String) : List String :=
  if words.isEmpty then []
  else
    (((words.zip (resultLines (pySplitlines stdoutRaw.data))).filter
      fun p => pyStartsWith '*' p.2).map Prod.fst).dedup

/-- Normalisation of one dictionary line in `load_base_words`:
`line.split("/", 1)[0].strip().lower()`. -/
def normDicLine (line : String) : String :=
  pyLowerS (pyStripS ⟨line.data.takeWhile fun c => !(c == '/')⟩)

/-- The word-list construction of `load_base_words` (common to
`solver/solver.py` and `main.py`), applied to the decoded raw lines: normalise
each line, keep `ASCII_RE` matches, deduplicate (a Python `set`), and return
them sorted (`sorted(words)`, ascending lexicographic). -/
def load_base_words (lines : List String) : List String :=
  List.insertionSort wordLeP (((lines.map normDicLine).filter asciiFullmatch).dedup)

instance : DecidableEq (Except String SolveResult) := fun x y =>
  match x, y with
  | .error a, .error b =>
    if h : a = b then .isTrue (congrArg Except.error h)
    else .isFalse fun he => h (Except.error.inj he)
  | .error _, .ok _ => .isFalse fun he => Except.noConfusion he
  | .ok _, .error _ => .isFalse fun he => Except.noConfusion he
  | .ok a, .ok b =>
    if h : a = b then .isTrue (congrArg Except.ok h)
    else .isFalse fun he => h (Except.ok.inj he)

section BasicLemmas

theorem charListLe_total : ∀ a b : List Char, charListLe a b || charListLe b a
  | [], _ => by simp [charListLe]
  | _ :: _, [] => by simp [charListLe]
  | a :: as, b :: bs => by
    simp only [charListLe, Bool.or_eq_true, decide_eq_true_eq, Bool.and_eq_true]
    rcases lt_trichotomy a b with h | h | h
    · exact Or.inl (Or.inl h)
    · subst h
      have := charListLe_total as bs
      simp only [Bool.or_eq_true] at this
      rcases this with h' | h'
      · exact Or.inl (Or.inr ⟨rfl, h'⟩)
      · exact Or.inr (Or.inr ⟨rfl, h'⟩)
    · exact Or.inr (Or.inl h)

theorem charListLe_trans : ∀ a b c : List Char,
    charListLe a b = true → charListLe b c = true → charListLe a c = true
  | [], _, _, _, _ => by simp [charListLe]
  | a :: as, [], _, h, _ => by simp [charListLe] at h
  | a :: as, b :: bs, [], _, h => by simp [charListLe] at h
  | a :: as, b :: bs, c :: cs, h1, h2 => by
    simp only [charListLe, Bool.or_eq_true, decide_eq_true_eq, Bool.and_eq_true] at h1 h2 ⊢
    rcases h1 with h1 | ⟨rfl, h1⟩
    · rcases h2 with h2 | ⟨rfl, h2⟩
      · exact Or.inl (lt_trans h1 h2)
      · exact Or.inl h1
    · rcases h2 with h2 | ⟨rfl, h2⟩
      · exact Or.inl h2
      · exact Or.inr ⟨rfl, charListLe_trans as bs cs h1 h2⟩

theorem charListLe_antisymm : ∀ a b : List Char,
    charListLe a b = true → charListLe b a = true → a = b
  | [], [], _, _ => rfl
  | [], _ :: _, _, h => by simp [charListLe] at h
  | _ :: _, [], h, _ => by simp [charListLe] at h
  | a :: as, b :: bs, h1, h2 => by
    simp only [charListLe, Bool.or_eq_true, decide_eq_true_eq, Bool.and_eq_true] at h1 h2
    rcases h1 with h1 | ⟨h1e, h1⟩
    · rcases h2 with h2 | ⟨h2e, h2⟩
      · exact absurd h1 (lt_asymm h2)
      · exact absurd h1 (h2e ▸ lt_irrefl b)
    · rcases h2 with h2 | ⟨h2e, h2⟩
      · exact absurd h2 (h1e ▸ lt_irrefl b)
      · rw [h1e, charListLe_antisymm as bs h1 h2]

theorem wordLe_total (x y : String) : wordLe x y || wordLe y x :=
  charListLe_total x.data y.data

theorem wordLe_trans {x y z : String} (h1 : wordLe x y = true) (h2 : wordLe y z = true) :
    wordLe x z = true :=
  charListLe_trans x.data y.data z.data h1 h2

theorem wordLe_antisymm {x y : String} (h1 : wordLe x y = true) (h2 : wordLe y x = true) :
    x = y := by
  cases x; cases y
  exact congrArg String.mk (charListLe_antisymm _ _ h1 h2)

theorem validLe_total (x y : String) : validLe x y || validLe y x := by
  simp only [validLe, Bool.or_eq_true, decide_eq_true_eq, Bool.and_eq_true]
  rcases lt_trichotomy x.length y.length with h | h | h
  · exact Or.inr (Or.inl h)
  · have := wordLe_total x y
    simp only [Bool.or_eq_true] at this
    rcases this with h' | h'
    · exact Or.inl (Or.inr ⟨h, h'⟩)
    · exact Or.inr (Or.inr ⟨h.symm, h'⟩)
  · exact Or.inl (Or.inl h)

theorem validLe_trans {x y z : String}
    (h1 : validLe x y = true) (h2 : validLe y z = true) : validLe x z = true := by
  simp only [validLe, Bool.or_eq_true, decide_eq_true_eq, Bool.and_eq_true] at h1 h2 ⊢
  rcases h1 with h1 | ⟨he1, h1⟩
  · rcases h2 with h2 | ⟨he2, h2⟩
    · exact Or.inl (lt_trans h2 h1)
    · exact Or.inl (he2 ▸ h1)
  · rcases h2 with h2 | ⟨he2, h2⟩
    · exact Or.inl (he1 ▸ h2)
    · exact Or.inr ⟨he1.trans he2, wordLe_trans h1 h2⟩

theorem validLe_antisymm {x y : String}
    (h1 : validLe x y = true) (h2 : validLe y x = true) : x = y := by
  simp only [validLe, Bool.or_eq_true, decide_eq_true_eq, Bool.and_eq_true] at h1 h2
  rcases h1 with h1 | ⟨he1, h1⟩
  · rcases h2 with h2 | ⟨he2, h2⟩
    · exact absurd h1 (lt_asymm h2)
    · omega
  · rcases h2 with h2 | ⟨he2, h2⟩
    · omega
    · exact wordLe_antisymm h1 h2

end BasicLemmas

section StripLowerLemmas

theorem lstrip_exists_append : ∀ l : List Char, ∃ s, s ++ lstrip l = l
  | [] => ⟨[], rfl⟩
  | c :: cs => by
    by_cases h : isPySpace c
    · obtain ⟨s, hs⟩ := lstrip_exists_append cs
      exact ⟨c :: s, by simp [lstrip, h, hs]⟩
    · exact ⟨[], by simp [lstrip, h]⟩

theorem lstrip_head_not_space : ∀ {l : List Char} {c : Char} {cs : List Char},
    lstrip l = c :: cs → isPySpace c = false := by
  intro l
  induction l with
  | nil => intro c cs h; simp [lstrip] at h
  | cons a as ih =>
    intro c cs h
    by_cases ha : isPySpace a
    · exact ih (by simpa [lstrip, ha] using h)
    · simp only [lstrip, ha, if_neg] at h
      cases h
      simpa using ha

theorem lstrip_eq_self : ∀ {l : List Char},
    (∀ c cs, l = c :: cs → isPySpace c = false) → lstrip l = l
  | [], _ => rfl
  | c :: cs, h => by simp [lstrip, h c cs rfl]

theorem rstrip_exists_append (l : List Char) : ∃ t, rstrip l ++ t = l := by
  obtain ⟨s, hs⟩ := lstrip_exists_append l.reverse
  refine ⟨s.reverse, ?_⟩
  have := congrArg List.reverse hs
  rw [List.reverse_append, List.reverse_reverse] at this
  exact this

theorem rstrip_getLast_not_space {l : List Char} {c : Char}
    (h : (rstrip l).getLast? = some c) : isPySpace c = false := by
  rw [rstrip, List.getLast?_reverse] at h
  obtain ⟨cs, hcs⟩ : ∃ cs, lstrip l.reverse = c :: cs := by
    cases he : lstrip l.reverse with
    | nil => rw [he] at h; simp at h
    | cons a as =>
      rw [he] at h
      simp only [List.head?_cons, Option.some_inj] at h
      subst h
      exact ⟨as, rfl⟩
  exact lstrip_head_not_space hcs

theorem rstrip_eq_self {l : List Char}
    (h : ∀ c, l.getLast? = some c → isPySpace c = false) : rstrip l = l := by
  rw [rstrip, lstrip_eq_self, List.reverse_reverse]
  intro c cs hc
  apply h
  rw [← List.head?_reverse, hc]
  rfl

theorem pyStripL_head_not_space {l : List Char} {c : Char} {cs : List Char}
    (h : pyStripL l = c :: cs) : isPySpace c = false := by
  obtain ⟨t, ht⟩ := rstrip_exists_append (lstrip l)
  rw [pyStripL] at h
  rw [h] at ht
  exact lstrip_head_not_space (show lstrip l = c :: (cs ++ t) by
    rw [← ht]; exact List.cons_append c cs t)

theorem pyStripL_idem (l : List Char) : pyStripL (pyStripL l) = pyStripL l := by
  cases he : pyStripL l with
  | nil => rfl
  | cons c cs =>
    have hc : isPySpace c = false := pyStripL_head_not_space he
    have hl : lstrip (c :: cs) = c :: cs := lstrip_eq_self (by intro d ds hd; cases hd; exact hc)
    rw [pyStripL, hl]
    apply rstrip_eq_self
    intro d hd
    apply rstrip_getLast_not_space (l := lstrip l)
    rw [← pyStripL, he, hd]

theorem lowerAZ_toNat (c : Char) (h : 'A' ≤ c ∧ c ≤ 'Z') :
    (lowerAZ c h).toNat = c.toNat + 32 := by
  have hv2 : c.val.toNat ≤ 90 := h.2
  show (c.val + 32).toNat = c.val.toNat + 32
  rw [UInt32.toNat_add, show (32 : UInt32).toNat = 32 from rfl,
    show UInt32.size = 4294967296 from rfl]
  omega

theorem pyLowerChar_toNat_lower (c : Char) :
    (65 ≤ c.toNat ∧ c.toNat ≤ 90 ∧ (pyLowerChar c).toNat = c.toNat + 32) ∨
    (¬(65 ≤ c.toNat ∧ c.toNat ≤ 90) ∧ pyLowerChar c = c) := by
  by_cases h : 'A' ≤ c ∧ c ≤ 'Z'
  · left
    have h1 : 65 ≤ c.val.toNat := h.1
    have h2 : c.val.toNat ≤ 90 := h.2
    exact ⟨h1, h2, by rw [pyLowerChar, dif_pos h]; exact lowerAZ_toNat c h⟩
  · right
    refine ⟨?_, by rw [pyLowerChar, dif_neg h]⟩
    intro ⟨h1, h2⟩
    exact h ⟨h1, h2⟩

theorem isPySpace_eq_false_of_ge {c : Char} (h : 65 ≤ c.toNat) : isPySpace c = false := by
  have hne : ∀ d : Char, d.toNat < 65 → c ≠ d := by
    intro d hd he
    subst he
    omega
  simp only [isPySpace, Bool.or_eq_false_iff, beq_eq_false_iff_ne, ne_eq]
  refine ⟨⟨⟨⟨⟨?_, ?_⟩, ?_⟩, ?_⟩, ?_⟩, ?_⟩ <;> exact hne _ (by decide)

theorem isPySpace_pyLowerChar (c : Char) : isPySpace (pyLowerChar c) = isPySpace c := by
  rcases pyLowerChar_toNat_lower c with ⟨h1, h2, h3⟩ | ⟨_, h⟩
  · rw [isPySpace_eq_false_of_ge (by omega), isPySpace_eq_false_of_ge h1]
  · rw [h]

theorem isAZ_iff_toNat {c : Char} : isAZ c = true ↔ 97 ≤ c.toNat ∧ c.toNat ≤ 122 := by
  simp only [isAZ, Bool.and_eq_true, decide_eq_true_eq]
  exact Iff.rfl

theorem pyLowerChar_of_isAZ {c : Char} (h : isAZ c = true) : pyLowerChar c = c := by
  rcases pyLowerChar_toNat_lower c with ⟨_, h2, _⟩ | ⟨_, he⟩
  · rw [isAZ_iff_toNat] at h
    omega
  · exact he

theorem pyLowerChar_idem (c : Char) : pyLowerChar (pyLowerChar c) = pyLowerChar c := by
  rcases pyLowerChar_toNat_lower c with ⟨h1, h2, h3⟩ | ⟨_, he⟩
  · apply pyLowerChar_of_isAZ
    rw [isAZ_iff_toNat]
    omega
  · rw [he, he]

theorem lstrip_map_pyLowerChar : ∀ l : List Char,
    lstrip (pyLowerL l) = pyLowerL (lstrip l)
  | [] => rfl
  | c :: cs => by
    by_cases h : isPySpace c
    · have h' : isPySpace (pyLowerChar c) = true := by rw [isPySpace_pyLowerChar, h]
      simp only [pyLowerL, List.map_cons, lstrip, h, h', if_pos]
      exact lstrip_map_pyLowerChar cs
    · have h' : isPySpace (pyLowerChar c) = false := by
        rw [isPySpace_pyLowerChar]
        simpa using h
      simp [pyLowerL, lstrip, h, h']

theorem pyLowerL_reverse (l : List Char) : pyLowerL l.reverse = (pyLowerL l).reverse :=
  List.map_reverse _ _

theorem pyStripL_map_pyLowerChar (l : List Char) :
    pyStripL (pyLowerL l) = pyLowerL (pyStripL l) := by
  rw [pyStripL, pyStripL, rstrip, rstrip, lstrip_map_pyLowerChar, ← pyLowerL_reverse,
    lstrip_map_pyLowerChar, pyLowerL_reverse]

theorem pyLowerL_idem (l : List Char) : pyLowerL (pyLowerL l) = pyLowerL l := by
  simp only [pyLowerL, List.map_map]
  exact List.map_congr_left fun c _ => pyLowerChar_idem c

/-- Constraint normalisation (`.lower().strip()`) is idempotent. -/
theorem normConstraint_idem (s : String) : normConstraint (normConstraint s) = normConstraint s := by
  cases s with
  | mk data =>
    apply congrArg String.mk
    show pyStripL (pyLowerL (pyStripL (pyLowerL data))) = pyStripL (pyLowerL data)
    rw [pyStripL_map_pyLowerChar, pyStripL_idem, ← pyStripL_map_pyLowerChar, pyLowerL_idem]

theorem lstrip_of_all_az {l : List Char} (h : ∀ c ∈ l, isAZ c = true) : lstrip l = l := by
  apply lstrip_eq_self
  intro c cs hc
  subst hc
  have := h c (by simp)
  rw [isAZ_iff_toNat] at this
  exact isPySpace_eq_false_of_ge (by omega)

theorem pyStripL_of_all_az {l : List Char} (h : ∀ c ∈ l, isAZ c = true) : pyStripL l = l := by
  rw [pyStripL, lstrip_of_all_az h, rstrip, lstrip_of_all_az, List.reverse_reverse]
  intro c hc
  exact h c (by simpa using hc)

theorem pyLowerL_of_all_az {l : List Char} (h : ∀ c ∈ l, isAZ c = true) : pyLowerL l = l := by
  simp only [pyLowerL]
  rw [List.map_congr_left fun c hc => pyLowerChar_of_isAZ (h c hc)]
  exact List.map_id l

/-- A string already matching `^[a-z]+$` is unchanged by `.lower().strip()`. -/
theorem normConstraint_of_ascii {s : String} (h : asciiFullmatch s = true) :
    normConstraint s = s := by
  have hall : ∀ c ∈ s.data, isAZ c = true := by
    have := (Bool.and_eq_true _ _).mp h
    exact fun c hc => List.all_eq_true.mp this.2 c hc
  cases s with
  | mk data =>
    apply congrArg String.mk
    show pyStripL (pyLowerL data) = data
    rw [pyLowerL_of_all_az hall, pyStripL_of_all_az hall]

/-- A string already matching `^[a-z]+$` is unchanged by `.strip().lower()`. -/
theorem normCand_of_ascii {s : String} (h : asciiFullmatch s = true) :
    normCand s = s := by
  have hall : ∀ c ∈ s.data, isAZ c = true := by
    have := (Bool.and_eq_true _ _).mp h
    exact fun c hc => List.all_eq_true.mp this.2 c hc
  cases s with
  | mk data =>
    apply congrArg String.mk
    show pyLowerL (pyStripL data) = data
    rw [pyStripL_of_all_az hall, pyLowerL_of_all_az hall]

end StripLowerLemmas

section CharacterizationLemmas

theorem asciiFullmatch_iff {s : String} :
    asciiFullmatch s = true ↔ s.data ≠ [] ∧ ∀ c ∈ s.data, isAZ c = true := by
  simp only [asciiFullmatch, Bool.and_eq_true, Bool.not_eq_true', List.isEmpty_eq_false,
    ne_eq, List.all_eq_true]

theorem pyInL_singleton_iff {c : Char} : ∀ {l : List Char}, pyInL [c] l = true ↔ c ∈ l
  | [] => by simp [pyInL, List.isPrefixOf]
  | a :: as => by
    have ih := pyInL_singleton_iff (c := c) (l := as)
    simp only [pyInL, List.tails_cons, List.any_cons] at ih ⊢
    simp only [List.isPrefixOf, Bool.and_true, Bool.or_eq_true, beq_iff_eq, List.mem_cons]
    rw [← pyInL]
    constructor
    · rintro (h | h)
      · exact Or.inl h
      · exact Or.inr (ih.mp h)
    · rintro (h | h)
      · exact Or.inl h
      · exact Or.inr (ih.mpr h)

theorem pyInStr_singleton_iff {m w : String} {mc : Char} (h : m.data = [mc]) :
    pyInStr m w = true ↔ mc ∈ w.data := by
  rw [pyInStr, h]
  exact pyInL_singleton_iff

theorem pySetDiff_isEmpty_iff {a b : List Char} :
    (pySetDiff a b).isEmpty = true ↔ ∀ c ∈ a, c ∈ b := by
  rw [pySetDiff, List.isEmpty_iff, List.filter_eq_nil_iff]
  constructor
  · intro h c hc
    simpa using h c (List.mem_dedup.mpr hc)
  · intro h c hc
    simpa using h c (List.mem_dedup.mp hc)

theorem counterEq_iff {a b : List Char} :
    counterEq a b = true ↔ ∀ c, a.count c = b.count c := by
  rw [counterEq, List.all_eq_true]
  constructor
  · intro h c
    by_cases hc : c ∈ a.dedup ++ b.dedup
    · exact beq_iff_eq.mp (h c hc)
    · rw [List.mem_append, List.mem_dedup, List.mem_dedup] at hc
      push_neg at hc
      rw [List.count_eq_zero.mpr hc.1, List.count_eq_zero.mpr hc.2]
  · intro h c _
    exact beq_iff_eq.mpr (h c)

theorem keepWord_iff {allowed mandatory w : String} {mc : Char} (hM : mandatory.data = [mc]) :
    keepWord allowed mandatory w = true ↔
      w.data ≠ [] ∧ (∀ c ∈ w.data, isAZ c = true) ∧ mc ∈ w.data ∧
        ∀ c ∈ w.data, c ∈ allowed.data := by
  simp only [keepWord, Bool.and_eq_true, Bool.not_eq_true', List.isEmpty_eq_false, ne_eq]
  rw [asciiFullmatch_iff, pyInStr_singleton_iff hM, pySetDiff_isEmpty_iff]
  constructor
  · rintro ⟨⟨⟨hne, ⟨_, haz⟩⟩, hin⟩, hsub⟩
    exact ⟨hne, haz, hin, hsub⟩
  · rintro ⟨hne, haz, hin, hsub⟩
    exact ⟨⟨⟨hne, ⟨hne, haz⟩⟩, hin⟩, hsub⟩

theorem mem_filteredWords {a m w : String} {cs : List String} :
    w ∈ filteredWords a m cs ↔ (∃ c ∈ cs, normCand c = w) ∧ keepWord a m w = true := by
  simp only [filteredWords, List.mem_filter, List.mem_map]

theorem mem_sortedValid {a m w : String} {cs : List String} :
    w ∈ sortedValid a m cs ↔ w ∈ filteredWords a m cs := by
  rw [sortedValid, List.mem_insertionSort, List.mem_dedup]

theorem nodup_sortedValid (a m : String) (cs : List String) : (sortedValid a m cs).Nodup :=
  ((List.perm_insertionSort validLeP _).nodup_iff).mpr (List.nodup_dedup _)

theorem pairwise_sortedValid (a m : String) (cs : List String) :
    (sortedValid a m cs).Pairwise validLeP := by
  haveI : IsTotal String validLeP := ⟨fun x y => by
    have h := validLe_total x y
    simp only [Bool.or_eq_true] at h
    exact h⟩
  haveI : IsTrans String validLeP := ⟨fun x y z hx hy => validLe_trans hx hy⟩
  exact List.sorted_insertionSort validLeP _

theorem mem_sortedPangrams {a m w : String} {cs : List String} :
    w ∈ sortedPangrams a m cs ↔
      w ∈ filteredWords a m cs ∧ isPangramWord a w = true := by
  rw [sortedPangrams, List.mem_insertionSort, List.mem_dedup, List.mem_filter]

theorem nodup_sortedPangrams (a m : String) (cs : List String) :
    (sortedPangrams a m cs).Nodup :=
  ((List.perm_insertionSort wordLeP _).nodup_iff).mpr (List.nodup_dedup _)

theorem pairwise_sortedPangrams (a m : String) (cs : List String) :
    (sortedPangrams a m cs).Pairwise wordLeP := by
  haveI : IsTotal String wordLeP := ⟨fun x y => by
    have h := wordLe_total x y
    simp only [Bool.or_eq_true] at h
    exact h⟩
  haveI : IsTrans String wordLeP := ⟨fun x y z hx hy => wordLe_trans hx hy⟩
  exact List.sorted_insertionSort wordLeP _

theorem charListLt_iff : ∀ a b : List Char,
    charListLt a b = true ↔ (charListLe a b = true ∧ a ≠ b)
  | [], [] => by simp [charListLt, charListLe]
  | [], _ :: _ => by simp [charListLt, charListLe]
  | _ :: _, [] => by simp [charListLt, charListLe]
  | a :: as, b :: bs => by
    have ih := charListLt_iff as bs
    simp only [charListLt, charListLe, Bool.or_eq_true, decide_eq_true_eq, Bool.and_eq_true,
      ne_eq, List.cons.injEq, not_and]
    constructor
    · rintro (h | ⟨rfl, h⟩)
      · exact ⟨Or.inl h, fun he _ => absurd h (he ▸ lt_irrefl b)⟩
      · obtain ⟨h1, h2⟩ := ih.mp h
        exact ⟨Or.inr ⟨rfl, h1⟩, fun _ => h2⟩
    · rintro ⟨h | ⟨rfl, h⟩, hne⟩
      · exact Or.inl h
      · exact Or.inr ⟨rfl, ih.mpr ⟨h, hne rfl⟩⟩

theorem wordLt_iff {x y : String} : wordLt x y = true ↔ (wordLe x y = true ∧ x ≠ y) := by
  rw [wordLt, wordLe, charListLt_iff]
  constructor
  · rintro ⟨h1, h2⟩
    exact ⟨h1, fun he => h2 (congrArg String.data he)⟩
  · rintro ⟨h1, h2⟩
    refine ⟨h1, fun he => h2 ?_⟩
    cases x; cases y
    exact congrArg String.mk he

theorem hasTriple_iff : ∀ l : List Char,
    hasTriple l = true ↔ ∃ pre c post, l = pre ++ c :: c :: c :: post
  | [] => by
    constructor
    · intro h
      exact absurd h (by decide)
    · rintro ⟨pre, c, post, h⟩
      have hl := congrArg List.length h
      simp only [List.length_nil, List.length_append, List.length_cons] at hl
      exact absurd hl (by omega)
  | [a] => by
    constructor
    · intro h
      simp [hasTriple] at h
    · rintro ⟨pre, c, post, h⟩
      have hl := congrArg List.length h
      simp only [List.length_cons, List.length_nil, List.length_append] at hl
      exact absurd hl (by omega)
  | [a, b] => by
    constructor
    · intro h
      simp [hasTriple] at h
    · rintro ⟨pre, c, post, h⟩
      have hl := congrArg List.length h
      simp only [List.length_cons, List.length_nil, List.length_append] at hl
      exact absurd hl (by omega)
  | a :: b :: c :: rest => by
    have ih := hasTriple_iff (b :: c :: rest)
    simp only [hasTriple, Bool.or_eq_true, Bool.and_eq_true, decide_eq_true_eq] at ih ⊢
    constructor
    · rintro (⟨rfl, rfl⟩ | h)
      · exact ⟨[], a, rest, rfl⟩
      · obtain ⟨pre, d, post, hd⟩ := ih.mp h
        exact ⟨a :: pre, d, post, by rw [List.cons_append, ← hd]⟩
    · rintro ⟨pre, d, post, hd⟩
      cases pre with
      | nil =>
        simp only [List.nil_append, List.cons.injEq] at hd
        obtain ⟨rfl, rfl, rfl, _⟩ := hd
        exact Or.inl ⟨rfl, rfl⟩
      | cons p ps =>
        simp only [List.cons_append, List.cons.injEq] at hd
        exact Or.inr (ih.mpr ⟨ps, d, post, hd.2⟩)

theorem exists_double_iff {l : List Char} :
    l.take (l.length / 2) = l.drop (l.length / 2) ↔ ∃ t, l = t ++ t := by
  constructor
  · intro h
    have hsplit := List.take_append_drop (l.length / 2) l
    rw [← h] at hsplit
    exact ⟨l.take (l.length / 2), hsplit.symm⟩
  · rintro ⟨t, rfl⟩
    have hlen : (t ++ t).length / 2 = t.length := by
      simp only [List.length_append]
      omega
    rw [hlen, List.take_left, List.drop_left]

end CharacterizationLemmas

section SolveLemmas

theorem asciiFullmatch_of_valid_allowed {allowed : String}
    (hA7 : allowed.length = 7) (hAaz : ∀ c ∈ allowed.data, isAZ c = true) :
    asciiFullmatch allowed = true := by
  rw [asciiFullmatch_iff]
  refine ⟨?_, hAaz⟩
  intro he
  have hlen : allowed.data.length = 7 := hA7
  rw [he] at hlen
  simp at hlen

theorem asciiFullmatch_of_singleton {mandatory : String} {mc : Char}
    (hM : mandatory.data = [mc]) (hmZ : isAZ mc = true) :
    asciiFullmatch mandatory = true := by
  rw [asciiFullmatch_iff, hM]
  refine ⟨by simp, ?_⟩
  intro c hc
  rw [List.mem_singleton] at hc
  subst hc
  exact hmZ

/-- When the constraints satisfy the data-model invariants, all three
validation checks pass and `solve_candidates` returns the `.ok` payload. -/
theorem solve_candidates_ok_of_valid {allowed mandatory : String} {mc : Char}
    (hA7 : allowed.length = 7) (hAnd : allowed.data.Nodup)
    (hAaz : ∀ c ∈ allowed.data, isAZ c = true)
    (hM : mandatory.data = [mc]) (hmZ : isAZ mc = true) (hmem : mc ∈ allowed.data)
    (cs : List String) :
    solve_candidates allowed mandatory cs = .ok (solveResultFor allowed mandatory cs) := by
  have hAascii := asciiFullmatch_of_valid_allowed hA7 hAaz
  have hMascii := asciiFullmatch_of_singleton hM hmZ
  have hna : normConstraint allowed = allowed := normConstraint_of_ascii hAascii
  have hnm : normConstraint mandatory = mandatory := normConstraint_of_ascii hMascii
  have h1 : ¬(allowed.length ≠ 7 ∨ allowed.data.dedup.length ≠ 7 ∨
      asciiFullmatch allowed = false) := by
    rintro (h | h | h)
    · exact h hA7
    · rw [List.dedup_eq_self.mpr hAnd] at h
      exact h hA7
    · rw [hAascii] at h
      exact Bool.noConfusion h
  have h2 : ¬(mandatory.length ≠ 1 ∨ asciiFullmatch mandatory = false) := by
    rintro (h | h)
    · apply h
      show mandatory.data.length = 1
      rw [hM]
      rfl
    · rw [hMascii] at h
      exact Bool.noConfusion h
  have h3 : ¬(pyInStr mandatory allowed = false) := by
    intro h
    rw [(pyInStr_singleton_iff hM).mpr hmem] at h
    exact Bool.noConfusion h
  simp only [solve_candidates, hna, hnm]
  rw [if_neg h1, if_neg h2, if_neg h3]

/-- The head of the descending-length sort realises the maximum length. -/
theorem maxLen_spec (a m : String) (cs : List String) :
    (∀ w ∈ sortedValid a m cs, w.length ≤ maxLenList (sortedValid a m cs)) ∧
    (sortedValid a m cs ≠ [] →
      ∃ w ∈ sortedValid a m cs, w.length = maxLenList (sortedValid a m cs)) := by
  have hp := pairwise_sortedValid a m cs
  cases he : sortedValid a m cs with
  | nil =>
    constructor
    · intro w hw
      simp at hw
    · intro h
      exact absurd rfl h
  | cons w0 rest =>
    rw [he] at hp
    rw [List.pairwise_cons] at hp
    constructor
    · intro w hw
      rw [List.mem_cons] at hw
      rcases hw with rfl | hw
      · exact le_refl _
      · have hle := hp.1 w hw
        rw [validLeP, validLe] at hle
        simp only [Bool.or_eq_true, decide_eq_true_eq, Bool.and_eq_true] at hle
        show w.length ≤ w0.length
        rcases hle with h | ⟨he2, _⟩
        · omega
        · omega
    · intro _
      exact ⟨w0, by simp, rfl⟩

/-- Sortedness of `valid_words` in strict form: each earlier word is longer,
or equal-length and strictly lexicographically smaller. -/
theorem pairwise_strict_sortedValid (a m : String) (cs : List String) :
    (sortedValid a m cs).Pairwise
      (fun x y => y.length < x.length ∨ (x.length = y.length ∧ wordLt x y = true)) := by
  have h2 : (sortedValid a m cs).Pairwise (· ≠ ·) := nodup_sortedValid a m cs
  refine ((pairwise_sortedValid a m cs).and h2).imp ?_
  rintro x y ⟨hle, hne⟩
  rw [validLeP, validLe] at hle
  simp only [Bool.or_eq_true, decide_eq_true_eq, Bool.and_eq_true] at hle
  rcases hle with h | ⟨heq, hw⟩
  · exact Or.inl h
  · exact Or.inr ⟨heq, wordLt_iff.mpr ⟨hw, hne⟩⟩

/-- Sortedness of `pangrams_7_exact` in strict form. -/
theorem pairwise_strict_sortedPangrams (a m : String) (cs : List String) :
    (sortedPangrams a m cs).Pairwise (fun x y => wordLt x y = true) := by
  have h2 : (sortedPangrams a m cs).Pairwise (· ≠ ·) := nodup_sortedPangrams a m cs
  refine ((pairwise_sortedPangrams a m cs).and h2).imp ?_
  rintro x y ⟨hle, hne⟩
  exact wordLt_iff.mpr ⟨hle, hne⟩

theorem mem_load_base_words {lines : List String} {w : String} :
    w ∈ load_base_words lines ↔
      (∃ line ∈ lines, normDicLine line = w) ∧ asciiFullmatch w = true := by
  rw [load_base_words, List.mem_insertionSort, List.mem_dedup, List.mem_filter, List.mem_map]

theorem nodup_load_base_words (lines : List String) : (load_base_words lines).Nodup :=
  ((List.perm_insertionSort wordLeP _).nodup_iff).mpr (List.nodup_dedup _)

theorem pairwise_load_base_words (lines : List String) :
    (load_base_words lines).Pairwise wordLeP := by
  haveI : IsTotal String wordLeP := ⟨fun x y => by
    have h := wordLe_total x y
    simp only [Bool.or_eq_true] at h
    exact h⟩
  haveI : IsTrans String wordLeP := ⟨fun x y z hx hy => wordLe_trans hx hy⟩
  exact List.sorted_insertionSort wordLeP _

theorem pairwise_strict_load_base_words (lines : List String) :
    (load_base_words lines).Pairwise (fun x y => wordLt x y = true) := by
  have h2 : (load_base_words lines).Pairwise (· ≠ ·) := nodup_load_base_words lines
  refine ((pairwise_load_base_words lines).and h2).imp ?_
  rintro x y ⟨hle, hne⟩
  exact wordLt_iff.mpr ⟨hle, hne⟩

/-- Any word made of two identical 4-letter halves fails `looks_reasonable`
whatever the minimum length. -/
theorem looks_reasonable_doubled {h : List Char} (hl : h.length = 4) (ml : Nat) :
    looks_reasonable ⟨h ++ h⟩ ml = false := by
  rw [looks_reasonable]
  split_ifs with h1 h2 h3
  · rfl
  · rfl
  · rfl
  · exfalso
    apply h3
    simp only [Bool.and_eq_true, decide_eq_true_eq, beq_iff_eq]
    have hlen : (⟨h ++ h⟩ : String).length = 8 := by
      show (h ++ h).length = 8
      rw [List.length_append]
      omega
    have h48 : (⟨h ++ h⟩ : String).length / 2 = h.length := by
      rw [hlen, hl]
    refine ⟨⟨by omega, by omega⟩, ?_⟩
    show (h ++ h).take ((⟨h ++ h⟩ : String).length / 2) =
      (h ++ h).drop ((⟨h ++ h⟩ : String).length / 2)
    rw [h48, List.take_left, List.drop_left]

end SolveLemmas

section Claims

/-- C1: For every valid constraint pair (`allowed` = 7 distinct a–z letters,
`mandatory` a single a–z letter occurring in `allowed`) and every finite list
of candidate strings, the `valid_words` field returned by `solve_candidates`
is exactly the deduplicated set of candidates (each first stripped and
lowercased) that are non-empty, purely a–z, contain the mandatory letter at
least once, and whose letter set is a subset of `allowed` — listed without
duplicates, sorted primarily by descending length and secondarily by
ascending lexicographic order. -/
theorem valid_words_characterization (allowed mandatory : String) (mc : Char)
    (cs : List String)
    (hA7 : allowed.length = 7) (hAnd : allowed.data.Nodup)
    (hAaz : ∀ c ∈ allowed.data, isAZ c = true)
    (hM : mandatory.data = [mc]) (hmZ : isAZ mc = true) (hmem : mc ∈ allowed.data) :
    ∃ r, solve_candidates allowed mandatory cs = .ok r ∧
      (∀ w, w ∈ r.valid_words ↔
        (∃ c ∈ cs, normCand c = w) ∧ w.data ≠ [] ∧ (∀ ch ∈ w.data, isAZ ch = true) ∧
          mc ∈ w.data ∧ (∀ ch ∈ w.data, ch ∈ allowed.data)) ∧
      r.valid_words.Nodup ∧
      r.valid_words.Pairwise
        (fun x y => y.length < x.length ∨ (x.length = y.length ∧ wordLt x y = true)) := by
  refine ⟨solveResultFor allowed mandatory cs,
    solve_candidates_ok_of_valid hA7 hAnd hAaz hM hmZ hmem cs, ?_, ?_, ?_⟩
  · intro w
    show w ∈ sortedValid allowed mandatory cs ↔ _
    rw [mem_sortedValid, mem_filteredWords, keepWord_iff hM]
  · exact nodup_sortedValid allowed mandatory cs
  · exact pairwise_strict_sortedValid allowed mandatory cs

/-- Witness for C1 at a concrete valid puzzle and candidate list. -/
theorem valid_words_characterization_witness :
    ∃ r, solve_candidates "aelnrst" "e"
        ["entstellen", "entstellen", "stresstest", "ALLERERSTE", "falsch", "rösten"] = .ok r ∧
      (∀ w, w ∈ r.valid_words ↔
        (∃ c ∈ ["entstellen", "entstellen", "stresstest", "ALLERERSTE", "falsch", "rösten"],
            normCand c = w) ∧
          w.data ≠ [] ∧ (∀ ch ∈ w.data, isAZ ch = true) ∧
          'e' ∈ w.data ∧ (∀ ch ∈ w.data, ch ∈ ("aelnrst" : String).data)) ∧
      r.valid_words.Nodup ∧
      r.valid_words.Pairwise
        (fun x y => y.length < x.length ∨ (x.length = y.length ∧ wordLt x y = true)) :=
  valid_words_characterization "aelnrst" "e" 'e'
    ["entstellen", "entstellen", "stresstest", "ALLERERSTE", "falsch", "rösten"]
    (by decide) (by decide) (by decide) (by decide) (by decide) (by decide)

/-- C2: For every valid constraint pair and candidate list,
`pangrams_7_exact` contains exactly those valid words of length exactly 7
whose per-letter counts equal the per-letter counts of `allowed` (i.e. the
permutations of the 7 allowed letters), without duplicates and sorted
lexicographically ascending; and in Scenario B (`allowed = "abcdefg"`,
`mandatory = "a"`, candidates `gfedcba`, `aaaaaaa`, `abcdefga`) it is
`["gfedcba"]` only. -/
theorem pangrams_characterization (allowed mandatory : String) (mc : Char)
    (cs : List String)
    (hA7 : allowed.length = 7) (hAnd : allowed.data.Nodup)
    (hAaz : ∀ c ∈ allowed.data, isAZ c = true)
    (hM : mandatory.data = [mc]) (hmZ : isAZ mc = true) (hmem : mc ∈ allowed.data) :
    (∃ r, solve_candidates allowed mandatory cs = .ok r ∧
      (∀ w, w ∈ r.pangrams_7_exact ↔
        w ∈ r.valid_words ∧ w.length = 7 ∧
          ∀ c, w.data.count c = allowed.data.count c) ∧
      r.pangrams_7_exact.Nodup ∧
      r.pangrams_7_exact.Pairwise (fun x y => wordLt x y = true)) ∧
    (∃ r2, solve_candidates "abcdefg" "a" ["gfedcba", "aaaaaaa", "abcdefga"] = .ok r2 ∧
      r2.pangrams_7_exact = ["gfedcba"]) := by
  constructor
  · refine ⟨solveResultFor allowed mandatory cs,
      solve_candidates_ok_of_valid hA7 hAnd hAaz hM hmZ hmem cs, ?_, ?_, ?_⟩
    · intro w
      show w ∈ sortedPangrams allowed mandatory cs ↔ _
      rw [mem_sortedPangrams]
      constructor
      · rintro ⟨hf, hp⟩
        rw [isPangramWord, Bool.and_eq_true, beq_iff_eq] at hp
        exact ⟨mem_sortedValid.mpr hf, hp.1, counterEq_iff.mp hp.2⟩
      · rintro ⟨hv, h7, hc⟩
        refine ⟨mem_sortedValid.mp hv, ?_⟩
        rw [isPangramWord, Bool.and_eq_true, beq_iff_eq]
        exact ⟨h7, counterEq_iff.mpr hc⟩
    · exact nodup_sortedPangrams allowed mandatory cs
    · exact pairwise_strict_sortedPangrams allowed mandatory cs
  · exact ⟨⟨["abcdefga", "aaaaaaa", "gfedcba"], ["gfedcba"], ["abcdefga"], 8⟩,
      by decide, rfl⟩

/-- Witness for C2 at Scenario B itself. -/
theorem pangrams_characterization_witness :
    (∃ r, solve_candidates "abcdefg" "a" ["gfedcba", "aaaaaaa", "abcdefga"] = .ok r ∧
      (∀ w, w ∈ r.pangrams_7_exact ↔
        w ∈ r.valid_words ∧ w.length = 7 ∧
          ∀ c, w.data.count c = ("abcdefg" : String).data.count c) ∧
      r.pangrams_7_exact.Nodup ∧
      r.pangrams_7_exact.Pairwise (fun x y => wordLt x y = true)) ∧
    (∃ r2, solve_candidates "abcdefg" "a" ["gfedcba", "aaaaaaa", "abcdefga"] = .ok r2 ∧
      r2.pangrams_7_exact = ["gfedcba"]) :=
  pangrams_characterization "abcdefg" "a" 'a' ["gfedcba", "aaaaaaa", "abcdefga"]
    (by decide) (by decide) (by decide) (by decide) (by decide) (by decide)

/-- C3: For every malformed constraint pair — `allowed` (after the program's
normalisation) not of length 7, or with duplicate letters, or not purely a–z;
`mandatory` (after normalisation) not exactly one a–z letter; or `mandatory`
not among the letters of `allowed` — `solve_candidates` raises `ValueError`
(an `Except.error`) whose value does not depend on the candidate list, so
solving never runs against malformed constraints. -/
theorem malformed_constraints_error (allowed mandatory : String)
    (h : ¬((normConstraint allowed).length = 7 ∧ (normConstraint allowed).data.Nodup ∧
            ∀ c ∈ (normConstraint allowed).data, isAZ c = true) ∨
         ¬((normConstraint mandatory).length = 1 ∧
            ∀ c ∈ (normConstraint mandatory).data, isAZ c = true) ∨
         ¬(∀ c ∈ (normConstraint mandatory).data, c ∈ (normConstraint allowed).data)) :
    ∃ e, ∀ cs, solve_candidates allowed mandatory cs = Except.error e := by
  by_cases c1 : (normConstraint allowed).length ≠ 7 ∨
      (normConstraint allowed).data.dedup.length ≠ 7 ∨
      asciiFullmatch (normConstraint allowed) = false
  · refine ⟨"allowed must be exactly 7 distinct letters (a-z)", fun cs => ?_⟩
    simp only [solve_candidates]
    rw [if_pos c1]
  push_neg at c1
  obtain ⟨hA7, hAd, hAf⟩ := c1
  have hAascii : asciiFullmatch (normConstraint allowed) = true := by
    cases hfm : asciiFullmatch (normConstraint allowed) with
    | false => exact absurd hfm hAf
    | true => rfl
  have hAnd : (normConstraint allowed).data.Nodup := by
    have hsub := List.dedup_sublist (normConstraint allowed).data
    have hlen : (normConstraint allowed).data.dedup.length =
        (normConstraint allowed).data.length := by
      rw [hAd]
      exact hA7.symm
    have heq := hsub.eq_of_length hlen
    rw [← heq]
    exact List.nodup_dedup _
  by_cases c2 : (normConstraint mandatory).length ≠ 1 ∨
      asciiFullmatch (normConstraint mandatory) = false
  · refine ⟨"mandatory must be exactly one a-z letter", fun cs => ?_⟩
    simp only [solve_candidates]
    rw [if_neg, if_pos c2]
    rintro (hx | hx | hx)
    · exact hx hA7
    · exact hx hAd
    · rw [hAascii] at hx
      exact Bool.noConfusion hx
  push_neg at c2
  obtain ⟨hM1, hMf⟩ := c2
  have hMascii : asciiFullmatch (normConstraint mandatory) = true := by
    cases hfm : asciiFullmatch (normConstraint mandatory) with
    | false => exact absurd hfm hMf
    | true => rfl
  obtain ⟨m0, hm0⟩ : ∃ m0, (normConstraint mandatory).data = [m0] :=
    List.length_eq_one.mp hM1
  have hMaz : ∀ c ∈ (normConstraint mandatory).data, isAZ c = true :=
    (asciiFullmatch_iff.mp hMascii).2
  have hAaz : ∀ c ∈ (normConstraint allowed).data, isAZ c = true :=
    (asciiFullmatch_iff.mp hAascii).2
  have h3 : ¬(∀ c ∈ (normConstraint mandatory).data, c ∈ (normConstraint allowed).data) := by
    rcases h with h | h | h
    · exact absurd ⟨hA7, hAnd, hAaz⟩ h
    · exact absurd ⟨hM1, hMaz⟩ h
    · exact h
  have hnotmem : m0 ∉ (normConstraint allowed).data := by
    intro hmem
    apply h3
    intro c hc
    rw [hm0, List.mem_singleton] at hc
    subst hc
    exact hmem
  have hpy : pyInStr (normConstraint mandatory) (normConstraint allowed) = false := by
    cases hfm : pyInStr (normConstraint mandatory) (normConstraint allowed) with
    | false => rfl
    | true => exact absurd ((pyInStr_singleton_iff hm0).mp hfm) hnotmem
  refine ⟨"mandatory letter must be among allowed letters", fun cs => ?_⟩
  simp only [solve_candidates]
  rw [if_neg, if_neg, if_pos hpy]
  · rintro (hx | hx)
    · exact hx hM1
    · rw [hMascii] at hx
      exact Bool.noConfusion hx
  · rintro (hx | hx | hx)
    · exact hx hA7
    · exact hx hAd
    · rw [hAascii] at hx
      exact Bool.noConfusion hx

/-- Witness for C3: too-short `allowed`, and a mandatory letter outside a
valid `allowed`. -/
theorem malformed_constraints_error_witness :
    (∃ e, ∀ cs, solve_candidates "abc" "a" cs = Except.error e) ∧
    (∃ e, ∀ cs, solve_candidates "abcdefg" "z" cs = Except.error e) :=
  ⟨malformed_constraints_error "abc" "a" (by decide),
   malformed_constraints_error "abcdefg" "z" (by decide)⟩

/-- C4: For every valid constraint pair and candidate list, `max_len` equals
the maximum word length occurring in `valid_words` (and 0 when `valid_words`
is empty), and `longest_words` is exactly the list of words of `valid_words`
whose length equals `max_len` (empty when `valid_words` is empty). -/
theorem max_len_longest_characterization (allowed mandatory : String) (mc : Char)
    (cs : List String)
    (hA7 : allowed.length = 7) (hAnd : allowed.data.Nodup)
    (hAaz : ∀ c ∈ allowed.data, isAZ c = true)
    (hM : mandatory.data = [mc]) (hmZ : isAZ mc = true) (hmem : mc ∈ allowed.data) :
    ∃ r, solve_candidates allowed mandatory cs = .ok r ∧
      (∀ w ∈ r.valid_words, w.length ≤ r.max_len) ∧
      (r.valid_words ≠ [] → ∃ w ∈ r.valid_words, w.length = r.max_len) ∧
      (r.valid_words = [] → r.max_len = 0) ∧
      (∀ w, w ∈ r.longest_words ↔ w ∈ r.valid_words ∧ w.length = r.max_len) ∧
      (r.valid_words = [] → r.longest_words = []) := by
  refine ⟨solveResultFor allowed mandatory cs,
    solve_candidates_ok_of_valid hA7 hAnd hAaz hM hmZ hmem cs,
    (maxLen_spec allowed mandatory cs).1, (maxLen_spec allowed mandatory cs).2, ?_, ?_, ?_⟩
  · intro h
    show maxLenList (sortedValid allowed mandatory cs) = 0
    rw [show sortedValid allowed mandatory cs = [] from h]
    rfl
  · intro w
    show w ∈ (sortedValid allowed mandatory cs).filter _ ↔ _
    rw [List.mem_filter]
    simp only [beq_iff_eq]
    exact Iff.rfl
  · intro h
    show (sortedValid allowed mandatory cs).filter _ = []
    rw [show sortedValid allowed mandatory cs = [] from h]
    rfl

/-- Witness for C4 at a concrete valid puzzle. -/
theorem max_len_longest_characterization_witness :
    ∃ r, solve_candidates "aelnrst" "e" ["entstellen", "stresstest", "rennen"] = .ok r ∧
      (∀ w ∈ r.valid_words, w.length ≤ r.max_len) ∧
      (r.valid_words ≠ [] → ∃ w ∈ r.valid_words, w.length = r.max_len) ∧
      (r.valid_words = [] → r.max_len = 0) ∧
      (∀ w, w ∈ r.longest_words ↔ w ∈ r.valid_words ∧ w.length = r.max_len) ∧
      (r.valid_words = [] → r.longest_words = []) :=
  max_len_longest_characterization "aelnrst" "e" 'e' ["entstellen", "stresstest", "rennen"]
    (by decide) (by decide) (by decide) (by decide) (by decide) (by decide)

/-- C9: For every valid constraint pair and every finite list of candidate
strings (including empty, duplicated, mixed-case, or non-alphabetic entries),
`solve_candidates` returns `.ok` (it never raises) with a well-formed result:
the three word lists contain no duplicates, `pangrams_7_exact` and
`longest_words` are subsets of `valid_words`, and every element of
`longest_words` has length `max_len`. -/
theorem solve_candidates_wellformed (allowed mandatory : String) (mc : Char)
    (cs : List String)
    (hA7 : allowed.length = 7) (hAnd : allowed.data.Nodup)
    (hAaz : ∀ c ∈ allowed.data, isAZ c = true)
    (hM : mandatory.data = [mc]) (hmZ : isAZ mc = true) (hmem : mc ∈ allowed.data) :
    ∃ r, solve_candidates allowed mandatory cs = .ok r ∧
      r.valid_words.Nodup ∧ r.pangrams_7_exact.Nodup ∧ r.longest_words.Nodup ∧
      (∀ w ∈ r.pangrams_7_exact, w ∈ r.valid_words) ∧
      (∀ w ∈ r.longest_words, w ∈ r.valid_words) ∧
      (∀ w ∈ r.longest_words, w.length = r.max_len) := by
  refine ⟨solveResultFor allowed mandatory cs,
    solve_candidates_ok_of_valid hA7 hAnd hAaz hM hmZ hmem cs,
    nodup_sortedValid allowed mandatory cs,
    nodup_sortedPangrams allowed mandatory cs,
    (nodup_sortedValid allowed mandatory cs).filter _, ?_, ?_, ?_⟩
  · intro w hw
    exact mem_sortedValid.mpr (mem_sortedPangrams.mp hw).1
  · intro w hw
    exact (List.mem_filter.mp hw).1
  · intro w hw
    have := (List.mem_filter.mp hw).2
    exact beq_iff_eq.mp this

/-- Witness for C9 with messy candidates (duplicates, mixed case, empty and
non-alphabetic entries). -/
theorem solve_candidates_wellformed_witness :
    ∃ r, solve_candidates "aelnrst" "e"
        ["rennen", "rennen", "ALLERERSTE", "", "  ", "rösten", "a1b"] = .ok r ∧
      r.valid_words.Nodup ∧ r.pangrams_7_exact.Nodup ∧ r.longest_words.Nodup ∧
      (∀ w ∈ r.pangrams_7_exact, w ∈ r.valid_words) ∧
      (∀ w ∈ r.longest_words, w ∈ r.valid_words) ∧
      (∀ w ∈ r.longest_words, w.length = r.max_len) :=
  solve_candidates_wellformed "aelnrst" "e" 'e'
    ["rennen", "rennen", "ALLERERSTE", "", "  ", "rösten", "a1b"]
    (by decide) (by decide) (by decide) (by decide) (by decide) (by decide)

/-- C10: `solve_candidates` normalises its constraint arguments before
validating them: the result equals that of the stripped-and-lowercased
constraints, so mixed-case / whitespace-padded inputs such as
`"AELNRST"` / `" E "` are treated identically to `"aelnrst"` / `"e"`. -/
theorem solve_candidates_normalizes_constraints (allowed mandatory : String)
    (cs : List String) :
    solve_candidates allowed mandatory cs =
      solve_candidates (normConstraint allowed) (normConstraint mandatory) cs ∧
    solve_candidates "AELNRST" " E " cs = solve_candidates "aelnrst" "e" cs := by
  have key : ∀ (x y : String) (l : List String),
      solve_candidates x y l = solve_candidates (normConstraint x) (normConstraint y) l := by
    intro x y l
    simp only [solve_candidates, normConstraint_idem]
  refine ⟨key allowed mandatory cs, ?_⟩
  rw [key "AELNRST" " E " cs, key "aelnrst" "e" cs,
    show normConstraint "AELNRST" = "aelnrst" from by decide,
    show normConstraint " E " = "e" from by decide,
    show normConstraint "aelnrst" = "aelnrst" from by decide,
    show normConstraint "e" = "e" from by decide]

/-- C5: A base word survives the prefilter stage of `solve` iff it is not
blacklisted, contains the mandatory letter, uses only allowed letters
(repetition unrestricted — membership is tested per letter), and passes
`looks_reasonable` when the heuristic filter is enabled, or — when it is
disabled — only the plain `len(w) >= min_len` check. -/
theorem prefilter_characterization (base_words blacklist : List String)
    (allowed mandatory : String) (mc : Char) (min_len : Nat) (enable_rf : Bool)
    (hM : mandatory.data = [mc]) :
    ∀ w, w ∈ prefilter base_words blacklist allowed mandatory min_len enable_rf ↔
      w ∈ base_words ∧ w ∉ blacklist ∧ mc ∈ w.data ∧
        (∀ c ∈ w.data, c ∈ allowed.data) ∧
        (if enable_rf then looks_reasonable w min_len = true else min_len ≤ w.length) := by
  intro w
  rw [prefilter, List.mem_filter]
  constructor
  · rintro ⟨hmem, hcond⟩
    simp only [Bool.and_eq_true] at hcond
    obtain ⟨⟨⟨⟨hbl, hin⟩, hsub⟩, hh1⟩, hh2⟩ := hcond
    refine ⟨hmem, ?_, (pyInStr_singleton_iff hM).mp hin, pySetDiff_isEmpty_iff.mp hsub, ?_⟩
    · simpa using hbl
    · cases enable_rf with
      | true =>
        simp only [if_pos]
        simpa using hh1
      | false =>
        simp only [Bool.false_eq_true, if_false]
        have : ¬(w.length < min_len) := by simpa using hh2
        omega
  · rintro ⟨hmem, hbl, hin, hsub, hlast⟩
    refine ⟨hmem, ?_⟩
    simp only [Bool.and_eq_true]
    refine ⟨⟨⟨⟨by simpa using hbl, (pyInStr_singleton_iff hM).mpr hin⟩,
      pySetDiff_isEmpty_iff.mpr hsub⟩, ?_⟩, ?_⟩
    · cases enable_rf with
      | true =>
        simp only [if_pos] at hlast
        simpa using hlast
      | false => simp
    · cases enable_rf with
      | true => simp
      | false =>
        simp only [Bool.false_eq_true, if_false] at hlast
        simp only [Bool.not_false, Bool.true_and, Bool.not_eq_true', decide_eq_false_iff_not]
        omega

/-- Witness for C5: a concrete blacklist, base list and constraints, with the
heuristic filter enabled. -/
theorem prefilter_characterization_witness :
    "rennen" ∈ prefilter ["rennen", "seennn", "banned", "ne"] ["banned"] "aelnrst" "e" 4 true ↔
      "rennen" ∈ ["rennen", "seennn", "banned", "ne"] ∧
        "rennen" ∉ ["banned"] ∧ 'e' ∈ ("rennen" : String).data ∧
        (∀ c ∈ ("rennen" : String).data, c ∈ ("aelnrst" : String).data) ∧
        (if true then looks_reasonable "rennen" 4 = true else 4 ≤ ("rennen" : String).length) :=
  prefilter_characterization ["rennen", "seennn", "banned", "ne"] ["banned"]
    "aelnrst" "e" 'e' 4 true (by decide) "rennen"

/-- C6: `looks_reasonable(w, min_len)` returns `True` iff `len(w) ≥ min_len`,
no character occurs three or more times consecutively, and it is not the case
that `len(w)` is even and at most 8 with `w` equal to two identical halves;
consequently an 8-letter word made of two identical 4-letter halves is always
rejected by the prefilter when the heuristic is enabled, hence never
submitted to the oracle. -/
theorem looks_reasonable_characterization :
    (∀ (w : String) (min_len : Nat), looks_reasonable w min_len = true ↔
      (min_len ≤ w.length ∧
       ¬(∃ pre c post, w.data = pre ++ c :: c :: c :: post) ∧
       ¬(w.length % 2 = 0 ∧ w.length ≤ 8 ∧ ∃ t, w.data = t ++ t))) ∧
    (∀ h : List Char, h.length = 4 →
      ∀ (bw bl : List String) (al mand : String) (ml : Nat),
        (⟨h ++ h⟩ : String) ∉ prefilter bw bl al mand ml true) := by
  constructor
  · intro w ml
    rw [looks_reasonable]
    split_ifs with h1 h2 h3
    · exact iff_of_false (by simp) (fun hc => absurd hc.1 (by omega))
    · exact iff_of_false (by simp) (fun hc => hc.2.1 ((hasTriple_iff w.data).mp h2))
    · simp only [Bool.and_eq_true, decide_eq_true_eq, beq_iff_eq] at h3
      exact iff_of_false (by simp)
        (fun hc => hc.2.2 ⟨h3.1.2, h3.1.1, exists_double_iff.mp h3.2⟩)
    · apply iff_of_true rfl
      refine ⟨by omega, ?_, ?_⟩
      · intro hex
        exact h2 ((hasTriple_iff w.data).mpr hex)
      · rintro ⟨he, h8, t, ht⟩
        apply h3
        simp only [Bool.and_eq_true, decide_eq_true_eq, beq_iff_eq]
        exact ⟨⟨h8, he⟩, exists_double_iff.mpr ⟨t, ht⟩⟩
  · intro h hl bw bl al mand ml hmem
    rw [prefilter, List.mem_filter] at hmem
    obtain ⟨_, hcond⟩ := hmem
    simp only [Bool.and_eq_true] at hcond
    obtain ⟨⟨_, hh1⟩, _⟩ := hcond
    have hlr : looks_reasonable ⟨h ++ h⟩ ml = true := by simpa using hh1
    rw [looks_reasonable_doubled hl] at hlr
    exact Bool.noConfusion hlr

/-- Witness for C6: the heuristic at a genuine word, and the doubled 4-letter
stem `effeeffe` excluded from a prefilter run. -/
theorem looks_reasonable_characterization_witness :
    (looks_reasonable "rennen" 4 = true ↔
      (4 ≤ ("rennen" : String).length ∧
       ¬(∃ pre c post, ("rennen" : String).data = pre ++ c :: c :: c :: post) ∧
       ¬(("rennen" : String).length % 2 = 0 ∧ ("rennen" : String).length ≤ 8 ∧
         ∃ t, ("rennen" : String).data = t ++ t))) ∧
    (⟨['e', 'f', 'f', 'e'] ++ ['e', 'f', 'f', 'e']⟩ : String) ∉
      prefilter ["effeeffe"] [] "ef" "e" 4 true :=
  ⟨looks_reasonable_characterization.1 "rennen" 4,
   looks_reasonable_characterization.2 ['e', 'f', 'f', 'e'] (by decide)
     ["effeeffe"] [] "ef" "e" 4⟩

/-- C7 (amended): Modelling the oracle's raw standard output as a string,
`hunspell_filter_valid` accepts exactly the words whose positionally matched
result line begins with `*`, where the result lines are the stripped forms of
the output lines that are non-empty after stripping and whose *raw*
(unstripped) line does not begin with `'@'`, taken in order; positions beyond
`min(len(words), len(result_lines))` are never accepted, the accepted set is
a subset of the submitted candidates, and an empty candidate list yields the
empty set for every possible oracle output (the oracle is not consulted). -/
theorem hunspell_filter_valid_characterization :
    (∀ out, hunspell_filter_valid [] out = []) ∧
    (∀ (words : List String) (out w : String),
      w ∈ hunspell_filter_valid words out ↔
        ∃ i, i < min words.length (resultLines (pySplitlines out.data)).length ∧
          words[i]? = some w ∧
          ∃ line, (resultLines (pySplitlines out.data))[i]? = some line ∧
            pyStartsWith '*' line = true) ∧
    (∀ (words : List String) (out : String),
      ∀ w ∈ hunspell_filter_valid words out, w ∈ words) := by
  have hmem : ∀ (words : List String) (out w : String),
      w ∈ hunspell_filter_valid words out ↔
        ∃ i, i < min words.length (resultLines (pySplitlines out.data)).length ∧
          words[i]? = some w ∧
          ∃ line, (resultLines (pySplitlines out.data))[i]? = some line ∧
            pyStartsWith '*' line = true := by
    intro words out w
    by_cases hw : words.isEmpty
    · rw [hunspell_filter_valid, if_pos hw]
      rw [List.isEmpty_iff] at hw
      subst hw
      simp only [List.not_mem_nil, false_iff, not_exists]
      intro i hi
      simp only [List.length_nil] at hi
      omega
    · rw [hunspell_filter_valid, if_neg hw]
      rw [List.mem_dedup, List.mem_map]
      constructor
      · rintro ⟨⟨a, line⟩, hpf, rfl⟩
        rw [List.mem_filter] at hpf
        obtain ⟨hz, hstar⟩ := hpf
        obtain ⟨i, hi⟩ := List.mem_iff_getElem?.mp hz
        rw [List.getElem?_zip_eq_some] at hi
        obtain ⟨hws, hls⟩ := hi
        have hwlt : i < words.length := (List.getElem?_eq_some.mp hws).1
        have hllt : i < (resultLines (pySplitlines out.data)).length :=
          (List.getElem?_eq_some.mp hls).1
        exact ⟨i, by omega, hws, line, hls, hstar⟩
      · rintro ⟨i, hi, hws, line, hls, hstar⟩
        refine ⟨(w, line), ?_, rfl⟩
        rw [List.mem_filter]
        refine ⟨?_, hstar⟩
        apply List.mem_iff_getElem?.mpr
        exact ⟨i, List.getElem?_zip_eq_some.mpr ⟨hws, hls⟩⟩
  refine ⟨fun out => rfl, hmem, ?_⟩
  intro words out w hw
  obtain ⟨i, _, hws, _⟩ := (hmem words out w).mp hw
  exact List.mem_iff_getElem?.mpr ⟨i, hws⟩

/-- Witness for C7: a header line, one rejection line and one acceptance line,
with a third candidate left unmatched (and hence rejected). -/
theorem hunspell_filter_valid_characterization_witness :
    "defg" ∈ ["abc", "defg", "hij"] :=
  hunspell_filter_valid_characterization.2.2 ["abc", "defg", "hij"]
    "@Hunspell header\n& abc 4 0: x\n*\n" "defg" (by decide)

/-- C7 counterexample: the claim as stated applies the header test
(`startswith("@")`) to the *stripped* output lines.  On the output
`" @x\n*a\n"` (whitespace before the `@`) the claim's result lines are
`["*a"]` alone, so position 0 pairs the first word `"w1"` with an accepting
line and the claim predicts `"w1"` accepted.  The code tests the raw line, so
it keeps `" @x"` as the (rejecting) result line for `"w1"` and accepts `"w2"`
from the second line instead. -/
theorem hunspell_header_strip_counterexample :
    ((0 : Nat) < min (["w1", "w2"] : List String).length
        ((((pySplitlines (" @x\n*a\n" : String).data).map pyStripL).filter
          (fun l => !l.isEmpty && !pyStartsWith '@' l)).length) ∧
      (["w1", "w2"] : List String)[0]? = some "w1" ∧
      ((((pySplitlines (" @x\n*a\n" : String).data).map pyStripL).filter
          (fun l => !l.isEmpty && !pyStartsWith '@' l)))[0]? = some ['*', 'a'] ∧
      pyStartsWith '*' ['*', 'a'] = true) ∧
    "w1" ∉ hunspell_filter_valid ["w1", "w2"] " @x\n*a\n" ∧
    "w2" ∈ hunspell_filter_valid ["w1", "w2"] " @x\n*a\n" := by decide

/-- C8: For every sequence of raw dictionary lines, `load_base_words` produces
the duplicate-free, lexicographically ascending list of the per-line
normalisations (portion before the first `/`, stripped, lowercased) that
fully match `[a-z]+`; duplicate stems with different flag suffixes collapse
to one entry, and lines with diacritics, digits or hyphens are excluded. -/
theorem load_base_words_characterization :
    (∀ (lines : List String) (w : String),
      w ∈ load_base_words lines ↔
        (∃ line ∈ lines, normDicLine line = w) ∧
          w.data ≠ [] ∧ ∀ c ∈ w.data, isAZ c = true) ∧
    (∀ lines, (load_base_words lines).Nodup) ∧
    (∀ lines, (load_base_words lines).Pairwise (fun x y => wordLt x y = true)) ∧
    load_base_words ["entstellen/A", "entstellen/B", "stresstest", "rösten", "abc-def"] =
      ["entstellen", "stresstest"] := by
  refine ⟨?_, nodup_load_base_words, pairwise_strict_load_base_words, by decide⟩
  intro lines w
  rw [mem_load_base_words, asciiFullmatch_iff]

end Claims

end WordWheel
